import Mathlib

/-!
Verification of the sharded in-process key-value store (src/cpp/src/main.cpp,
with the SPSC prototype in src/cpp/src/test_main.cpp).

The store routes each request by a hash of its key to one of N shards; each
shard owns an unordered map and consumes requests from its inbox in FIFO
order.  We embed the shard map as an association list with the semantics of
std::unordered_map (at most one entry per key, insert_or_assign replaces in
place), the request protocol as a sum type, and the run loop as FIFO
processing of the queued requests.  Node-level insert, get and flush are
embedded as their single-client linearizations: insert enqueues a Put on the
routed shard, get drains the routed shard queue and then handles the Get,
flush drains every shard through a trailing Flush request.
-/

namespace KVStore

/-- Request variant: Get, Put, Flush, as in main.cpp lines 42 to 57. -/
inductive Request (K V : Type) where
  | get (key : K)
  | put (key : K) (value : V)
  | flush
deriving DecidableEq

/-- Reply written to the per-request completion handle. -/
inductive Response (V : Type) where
  | getReply (result : Option V)
  | putReply (inserted : Bool)
  | flushReply
deriving DecidableEq

variable {K V : Type}

/-- Lookup in the shard map, embedding data.find in handle_request. -/
def findValue [DecidableEq K] : List (K × V) → K → Option V
  | [], _ => none
  | (k₁, v₁) :: rest, k => if k₁ = k then some v₁ else findValue rest k

/-- Embedding of data.insert_or_assign: replaces the mapping of the key if
present (second component false), appends a new entry otherwise (second
component true). -/
def insert_or_assign [DecidableEq K] (k : K) (v : V) : List (K × V) → List (K × V) × Bool
  | [] => ([(k, v)], true)
  | (k₁, v₁) :: rest =>
    if k₁ = k then ((k₁, v) :: rest, false)
    else ((k₁, v₁) :: (insert_or_assign k v rest).1, (insert_or_assign k v rest).2)

/-- Embedding of Shard::handle_request in main.cpp (lines 132 to 151): the
second component collects the values written to the completion handle of the
request, one element per set_value call.  The Put branch replies true
unconditionally, as in line 144. -/
def handle_request [DecidableEq K] (d : List (K × V)) :
    Request K V → List (K × V) × List (Response V)
  | Request.get k => (d, [Response.getReply (findValue d k)])
  | Request.put k v => ((insert_or_assign k v d).1, [Response.putReply true])
  | Request.flush => (d, [Response.flushReply])

/-- Two-variant request type of the SPSC prototype (test_main.cpp lines 27 to 38). -/
inductive RequestT (K V : Type) where
  | get (key : K)
  | put (key : K) (value : V)
deriving DecidableEq

/-- Embedding of Shard::handle_request in test_main.cpp (lines 105 to 120):
the Put branch replies the inserted boolean of insert_or_assign. -/
def handle_request_t [DecidableEq K] (d : List (K × V)) :
    RequestT K V → List (K × V) × List (Response V)
  | RequestT.get k => (d, [Response.getReply (findValue d k)])
  | RequestT.put k v => ((insert_or_assign k v d).1, [Response.putReply (insert_or_assign k v d).2])

/-- FIFO consumption of a list of queued requests by the shard worker,
threading the shard map and concatenating the delivered replies in order. -/
def process_fifo [DecidableEq K] (d : List (K × V)) :
    List (Request K V) → List (K × V) × List (Response V)
  | [] => (d, [])
  | r :: rest =>
    ((process_fifo (handle_request d r).1 rest).1,
     (handle_request d r).2 ++ (process_fifo (handle_request d r).1 rest).2)

/-- State of one shard: its map and its inbox contents. -/
structure ShardState (K V : Type) where
  data : List (K × V)
  queue : List (Request K V)
deriving DecidableEq

/-- One iteration of Shard::run in main.cpp (lines 119 to 129): if stop has
been requested the worker returns (result none), regardless of the inbox;
otherwise it dequeues and handles one request, or yields when the inbox is
empty. -/
def run_step [DecidableEq K] (stop : Bool) (s : ShardState K V) :
    Option (ShardState K V × List (Response V)) :=
  match stop with
  | true => none
  | false =>
    match s.queue with
    | [] => some (s, [])
    | r :: rest =>
      some ({ data := (handle_request s.data r).1, queue := rest }, (handle_request s.data r).2)

/- ------------------------------------------------------------------ -/
/- Lemmas about the shard map operations                              -/
/- ------------------------------------------------------------------ -/

theorem findValue_insert_self [DecidableEq K] (k : K) (v : V) (d : List (K × V)) :
    findValue ((insert_or_assign k v d).1) k = some v := by
  induction d with
  | nil => simp [insert_or_assign, findValue]
  | cons p rest ih =>
    obtain ⟨k₁, v₁⟩ := p
    by_cases h : k₁ = k
    · subst h
      simp [insert_or_assign, findValue]
    · simp [insert_or_assign, findValue, h, ih]

theorem findValue_insert_other [DecidableEq K] (k k₂ : K) (v : V) (d : List (K × V))
    (h : k₂ ≠ k) :
    findValue ((insert_or_assign k v d).1) k₂ = findValue d k₂ := by
  induction d with
  | nil =>
    simp [insert_or_assign, findValue, Ne.symm h]
  | cons p rest ih =>
    obtain ⟨k₁, v₁⟩ := p
    by_cases hk : k₁ = k
    · subst hk
      simp [insert_or_assign, findValue, Ne.symm h]
    · by_cases hk₂ : k₁ = k₂
      · subst hk₂
        simp [insert_or_assign, findValue, hk]
      · simp [insert_or_assign, findValue, hk, hk₂, ih]

theorem process_fifo_append [DecidableEq K] (a b : List (Request K V)) (d : List (K × V)) :
    process_fifo d (a ++ b) =
      ((process_fifo (process_fifo d a).1 b).1,
       (process_fifo d a).2 ++ (process_fifo (process_fifo d a).1 b).2) := by
  induction a generalizing d with
  | nil => simp [process_fifo]
  | cons r rest ih => simp [process_fifo, ih, List.append_assoc]

theorem process_fifo_flush_last [DecidableEq K] (d : List (K × V)) (q : List (Request K V)) :
    (process_fifo d (q ++ [Request.flush])).1 = (process_fifo d q).1 := by
  rw [process_fifo_append]
  simp [process_fifo, handle_request]

/-- C2: the claim says the boolean delivered on a Put completion is true
exactly when a new entry was created.  Evaluating the handlers on a shard map
that already holds key 0: the main.cpp handler overwrites (the map becomes
the single entry (0, 1)) yet replies true, while the SPSC prototype handler
replies false as the claim requires. -/
theorem put_reply_overwrite_divergence :
    handle_request [((0 : Nat), (0 : Nat))] (Request.put 0 1) = ([(0, 1)], [Response.putReply true])
    ∧ handle_request_t [((0 : Nat), (0 : Nat))] (RequestT.put 0 1) = ([(0, 1)], [Response.putReply false]) := by
  constructor <;> rfl

/-- C9: for every shard map and every dequeued request, Shard::handle_request
of main.cpp writes to the completion handle of the request exactly once: every
branch of the visitor performs exactly one set_value call. -/
theorem handle_request_replies_once [DecidableEq K] (d : List (K × V)) (r : Request K V) :
    ((handle_request d r).2).length = 1 := by
  cases r <;> rfl

/-- C7: the run loop of main.cpp checks the stop token before trying to
dequeue, so with stop requested and a Get request still queued the worker
returns at once (run_step yields none), leaving the inbox non-empty and the
completion of the queued request undelivered; nothing refuses new requests
after stop either.  This contradicts the claim that the worker never exits
while the inbox is non-empty. -/
theorem run_step_abandons_pending_request :
    run_step true { data := ([] : List (Nat × Nat)), queue := [Request.get 0] } = none
    ∧ ({ data := ([] : List (Nat × Nat)), queue := [Request.get 0] } : ShardState Nat Nat).queue ≠ [] := by
  constructor
  · rfl
  · intro h
    cases h

/-- C10: handling a request mutates at most the map entry for the key of the
request: a Get and a Flush leave the shard map unchanged, and a Put for key k
leaves the mapping of every other key unchanged. -/
theorem handle_request_frame [DecidableEq K] (d : List (K × V)) (k k₂ : K) (v : V)
    (h : k₂ ≠ k) :
    (handle_request d (Request.get k)).1 = d
    ∧ (handle_request d Request.flush).1 = d
    ∧ findValue ((handle_request d (Request.put k v)).1) k₂ = findValue d k₂ := by
  refine ⟨rfl, rfl, ?_⟩
  exact findValue_insert_other k k₂ v d h

/-- Witness for C10 at a concrete shard map and keys. -/
theorem handle_request_frame_witness :
    (2 : Nat) ≠ 5
    ∧ ((handle_request [((2 : Nat), (9 : Nat))] (Request.get 5)).1 = [(2, 9)]
       ∧ (handle_request [((2 : Nat), (9 : Nat))] Request.flush).1 = [(2, 9)]
       ∧ findValue ((handle_request [((2 : Nat), (9 : Nat))] (Request.put 5 7)).1) 2
           = findValue [((2 : Nat), (9 : Nat))] 2) :=
  ⟨by decide, handle_request_frame [((2 : Nat), (9 : Nat))] 5 2 7 (by decide)⟩

/-- C5: FIFO processing with a flush barrier.  For every shard map and every
inbox split as q₁ then a Flush then q₂, the replies are exactly the replies
to q₁, then the Flush completion, then the replies to q₂ computed from the
map obtained after all of q₁ was processed: the Flush completes only after
every request enqueued before it has been handled. -/
theorem fifo_flush_barrier [DecidableEq K] (d : List (K × V)) (q₁ q₂ : List (Request K V)) :
    process_fifo d (q₁ ++ Request.flush :: q₂) =
      ((process_fifo (process_fifo d q₁).1 q₂).1,
       (process_fifo d q₁).2
         ++ Response.flushReply :: (process_fifo (process_fifo d q₁).1 q₂).2) := by
  rw [process_fifo_append]
  simp [process_fifo, handle_request]

/- ------------------------------------------------------------------ -/
/- Node-level model                                                   -/
/- ------------------------------------------------------------------ -/

/-- A freshly constructed shard: empty map, empty inbox. -/
def emptyShard : ShardState K V := { data := [], queue := [] }

/-- Enqueue one request at the back of the shard inbox (Shard::put, get,
flush in main.cpp only construct the request and enqueue it). -/
def Shard.enqueue (s : ShardState K V) (r : Request K V) : ShardState K V :=
  { s with queue := s.queue ++ [r] }

/-- State of a Node: the shard count fixed at construction and the shards. -/
structure NodeState (K V : Type) where
  num_cores : Nat
  shards : List (ShardState K V)
deriving DecidableEq

/-- Routing computed by Node::insert and Node::get: hash of the key modulo
the shard count (main.cpp lines 211 and 216). -/
def shard_id_of (hashk : K → Nat) (num_cores : Nat) (k : K) : Nat :=
  hashk k % num_cores

/-- Hash of main.cpp hash_key for integer keys: the multi_is_same branch
returns the key itself. -/
def hash_key (k : Nat) : Nat := k

/-- Replace the element at one index of a list, leaving the rest unchanged. -/
def modifyIdx {α : Type} (f : α → α) : Nat → List α → List α
  | _, [] => []
  | 0, x :: xs => f x :: xs
  | i + 1, x :: xs => x :: modifyIdx f i xs

/-- Node construction: N shards, each with empty map and inbox. -/
def Node.init (num_cores : Nat) : NodeState K V :=
  { num_cores := num_cores, shards := List.replicate num_cores emptyShard }

/-- Node::insert (main.cpp lines 210 to 213): route by hash, enqueue a Put on
the owning shard, discard the completion handle. -/
def Node.insert (hashk : K → Nat) (n : NodeState K V) (k : K) (v : V) : NodeState K V :=
  { n with
    shards := modifyIdx (fun s => Shard.enqueue s (Request.put k v))
      (shard_id_of hashk n.num_cores k) n.shards }

/-- Node::get (main.cpp lines 215 to 218), linearized for one client: the Get
is enqueued behind the requests already in the owning shard inbox, so its
reply is produced by handle_request on the map obtained after the whole inbox
was processed in FIFO order. -/
def Node.get [DecidableEq K] (hashk : K → Nat) (n : NodeState K V) (k : K) :
    Option V × NodeState K V :=
  ((handle_request
      (process_fifo (n.shards.getD (shard_id_of hashk n.num_cores k) emptyShard).data
        (n.shards.getD (shard_id_of hashk n.num_cores k) emptyShard).queue).1
      (Request.get k)).2.head?.elim none
      (fun r => match r with
        | Response.getReply o => o
        | _ => none),
   { n with
     shards := modifyIdx
       (fun s =>
         { data := (handle_request (process_fifo s.data s.queue).1 (Request.get k)).1,
           queue := [] })
       (shard_id_of hashk n.num_cores k) n.shards })

/-- Node::flush (main.cpp lines 220 to 230): enqueue a Flush on every shard
and await every reply; by the FIFO barrier each shard has processed its whole
inbox, the trailing Flush included, when flush returns. -/
def Node.flush [DecidableEq K] (n : NodeState K V) : NodeState K V :=
  { n with
    shards := n.shards.map
      (fun s => { data := (process_fifo s.data (s.queue ++ [Request.flush])).1, queue := [] }) }

/-- A sequence of fire-and-forget inserts issued in order by one client. -/
def Node.insertAll (hashk : K → Nat) (n : NodeState K V) : List (K × V) → NodeState K V
  | [] => n
  | p :: rest => Node.insertAll hashk (Node.insert hashk n p.1 p.2) rest

/-- Public operations a client may issue against a Node over its lifetime. -/
inductive NodeOp (K V : Type) where
  | insertOp (k : K) (v : V)
  | getOp (k : K)
  | flushOp

/-- Apply one public operation to the node state. -/
def applyOp [DecidableEq K] (hashk : K → Nat) (n : NodeState K V) : NodeOp K V → NodeState K V
  | NodeOp.insertOp k v => Node.insert hashk n k v
  | NodeOp.getOp k => (Node.get hashk n k).2
  | NodeOp.flushOp => Node.flush n

/-- Apply a sequence of public operations in order. -/
def applyOps [DecidableEq K] (hashk : K → Nat) (n : NodeState K V) :
    List (NodeOp K V) → NodeState K V
  | [] => n
  | op :: rest => applyOps hashk (applyOp hashk n op) rest

/- ------------------------------------------------------------------ -/
/- List index helper lemmas                                           -/
/- ------------------------------------------------------------------ -/

theorem modifyIdx_length {α : Type} (f : α → α) (i : Nat) (l : List α) :
    (modifyIdx f i l).length = l.length := by
  induction l generalizing i with
  | nil => cases i <;> rfl
  | cons x xs ih => cases i <;> simp [modifyIdx, ih]

theorem getD_modifyIdx_self {α : Type} (f : α → α) (i : Nat) (l : List α) (dflt : α)
    (h : i < l.length) :
    (modifyIdx f i l).getD i dflt = f (l.getD i dflt) := by
  induction l generalizing i with
  | nil => cases h
  | cons x xs ih =>
    cases i with
    | zero => rfl
    | succ j =>
      simp only [modifyIdx, List.getD_cons_succ]
      exact ih j (Nat.lt_of_succ_lt_succ h)

theorem getD_modifyIdx_ne {α : Type} (f : α → α) (i j : Nat) (l : List α) (dflt : α)
    (h : i ≠ j) :
    (modifyIdx f i l).getD j dflt = l.getD j dflt := by
  induction l generalizing i j with
  | nil => cases i <;> rfl
  | cons x xs ih =>
    cases i with
    | zero =>
      cases j with
      | zero => exact absurd rfl h
      | succ j₂ => rfl
    | succ i₂ =>
      cases j with
      | zero => rfl
      | succ j₂ =>
        simp only [modifyIdx, List.getD_cons_succ]
        exact ih i₂ j₂ (fun hh => h (hh ▸ rfl))

theorem getD_replicate_self {α : Type} (x dflt : α) (n i : Nat) (h : i < n) :
    (List.replicate n x).getD i dflt = x := by
  induction n generalizing i with
  | zero => cases h
  | succ m ih =>
    cases i with
    | zero => rfl
    | succ j =>
      simp only [List.replicate, List.getD_cons_succ]
      exact ih j (Nat.lt_of_succ_lt_succ h)

theorem getD_map_of_lt {α β : Type} (f : α → β) (l : List α) (i : Nat) (d₁ : α) (d₂ : β)
    (h : i < l.length) :
    (l.map f).getD i d₂ = f (l.getD i d₁) := by
  induction l generalizing i with
  | nil => cases h
  | cons x xs ih =>
    cases i with
    | zero => rfl
    | succ j =>
      simp only [List.map_cons, List.getD_cons_succ]
      exact ih j (Nat.lt_of_succ_lt_succ h)

/- ------------------------------------------------------------------ -/
/- Node operation preservation lemmas                                 -/
/- ------------------------------------------------------------------ -/

theorem insert_num_cores (hashk : K → Nat) (n : NodeState K V) (k : K) (v : V) :
    (Node.insert hashk n k v).num_cores = n.num_cores := rfl

theorem insert_shards_length (hashk : K → Nat) (n : NodeState K V) (k : K) (v : V) :
    (Node.insert hashk n k v).shards.length = n.shards.length :=
  modifyIdx_length _ _ _

theorem insertAll_num_cores (hashk : K → Nat) (ops : List (K × V)) (n : NodeState K V) :
    (Node.insertAll hashk n ops).num_cores = n.num_cores := by
  induction ops generalizing n with
  | nil => rfl
  | cons p rest ih => simpa [Node.insertAll] using ih (Node.insert hashk n p.1 p.2)

theorem insertAll_shards_length (hashk : K → Nat) (ops : List (K × V)) (n : NodeState K V) :
    (Node.insertAll hashk n ops).shards.length = n.shards.length := by
  induction ops generalizing n with
  | nil => rfl
  | cons p rest ih =>
    calc (Node.insertAll hashk (Node.insert hashk n p.1 p.2) rest).shards.length
        = (Node.insert hashk n p.1 p.2).shards.length := ih _
      _ = n.shards.length := insert_shards_length hashk n p.1 p.2

theorem flush_num_cores [DecidableEq K] (n : NodeState K V) :
    (Node.flush n).num_cores = n.num_cores := rfl

theorem flush_shards_length [DecidableEq K] (n : NodeState K V) :
    (Node.flush n).shards.length = n.shards.length := by
  simp [Node.flush]

theorem applyOp_num_cores [DecidableEq K] (hashk : K → Nat) (n : NodeState K V)
    (op : NodeOp K V) :
    (applyOp hashk n op).num_cores = n.num_cores := by
  cases op <;> rfl

/-- C8: determinism and stability of routing.  The shard id computed for a
key is hash mod num_cores, and num_cores never changes over the lifetime of
the Node: after any sequence of public operations the shard id computed for a
key equals the shard id computed at construction, so any two operations on
the same key are routed to the same shard. -/
theorem routing_deterministic_stable [DecidableEq K] (hashk : K → Nat) (n : NodeState K V)
    (ops : List (NodeOp K V)) (k : K) :
    shard_id_of hashk (applyOps hashk n ops).num_cores k = shard_id_of hashk n.num_cores k := by
  induction ops generalizing n with
  | nil => rfl
  | cons op rest ih =>
    calc shard_id_of hashk (applyOps hashk (applyOp hashk n op) rest).num_cores k
        = shard_id_of hashk (applyOp hashk n op).num_cores k := ih _
      _ = shard_id_of hashk n.num_cores k := by rw [applyOp_num_cores]

/- ------------------------------------------------------------------ -/
/- Processing a sequence of Put requests                              -/
/- ------------------------------------------------------------------ -/

theorem process_fifo_puts_other [DecidableEq K] (ps : List (K × V)) (d : List (K × V)) (k : K)
    (h : ∀ p ∈ ps, p.1 ≠ k) :
    findValue (process_fifo d (ps.map (fun p => Request.put p.1 p.2))).1 k = findValue d k := by
  revert h
  induction ps generalizing d with
  | nil =>
    intro _
    simp [process_fifo]
  | cons p rest ih =>
    intro h
    simp only [List.map_cons, process_fifo, handle_request]
    rw [ih ((insert_or_assign p.1 p.2 d).1) (fun q hq => h q (List.mem_cons_of_mem p hq))]
    exact findValue_insert_other p.1 k p.2 d (Ne.symm (h p (List.mem_cons_self p rest)))

theorem process_fifo_puts_mem [DecidableEq K] (ps : List (K × V)) (d : List (K × V))
    (k : K) (v : V) (hmem : (k, v) ∈ ps) (hnd : (ps.map Prod.fst).Nodup) :
    findValue (process_fifo d (ps.map (fun p => Request.put p.1 p.2))).1 k = some v := by
  revert hmem hnd
  induction ps generalizing d with
  | nil =>
    intro hmem _
    exact absurd hmem (List.not_mem_nil _)
  | cons p rest ih =>
    intro hmem hnd
    simp only [List.map_cons, List.nodup_cons] at hnd
    simp only [List.map_cons, process_fifo, handle_request]
    rcases List.mem_cons.mp hmem with heq | hmem₂
    · obtain rfl := heq.symm
      have hdisj : ∀ q ∈ rest, q.1 ≠ k := by
        intro q hq hqk
        have hmm : q.1 ∈ List.map Prod.fst rest := List.mem_map_of_mem Prod.fst hq
        rw [hqk] at hmm
        exact hnd.1 hmm
      rw [process_fifo_puts_other rest ((insert_or_assign k v d).1) k hdisj]
      exact findValue_insert_self k v d
    · exact ih ((insert_or_assign p.1 p.2 d).1) hmem₂ hnd.2

theorem process_fifo_puts_last [DecidableEq K] (vs : List V) (d : List (K × V)) (k : K) (v : V)
    (h : vs.getLast? = some v) :
    findValue (process_fifo d (vs.map (fun w => Request.put k w))).1 k = some v := by
  revert h
  induction vs generalizing d with
  | nil =>
    intro h
    simp at h
  | cons w rest ih =>
    intro h
    cases rest with
    | nil =>
      obtain rfl : w = v := by simpa using h
      simp [process_fifo, handle_request, findValue_insert_self]
    | cons w₂ rest₂ =>
      have h₂ : (w₂ :: rest₂).getLast? = some v := by
        simpa [List.getLast?_cons_cons] using h
      simpa [process_fifo, handle_request] using
        ih ((insert_or_assign k w d).1) h₂

/- ------------------------------------------------------------------ -/
/- Shape of the shard inboxes after a sequence of inserts             -/
/- ------------------------------------------------------------------ -/

theorem insertAll_getD [DecidableEq K] (hashk : K → Nat) (ops : List (K × V)) :
    ∀ (n : NodeState K V) (i : Nat), n.shards.length = n.num_cores → i < n.num_cores →
    (Node.insertAll hashk n ops).shards.getD i emptyShard =
      { data := (n.shards.getD i emptyShard).data,
        queue := (n.shards.getD i emptyShard).queue ++
          (ops.filter (fun p => decide (shard_id_of hashk n.num_cores p.1 = i))).map
            (fun p => Request.put p.1 p.2) } := by
  induction ops with
  | nil =>
    intro n i hlen hi
    simp [Node.insertAll]
  | cons p rest ih =>
    intro n i hlen hi
    have hlen₂ : (Node.insert hashk n p.1 p.2).shards.length
        = (Node.insert hashk n p.1 p.2).num_cores := by
      rw [insert_shards_length, insert_num_cores]
      exact hlen
    have hi₂ : i < (Node.insert hashk n p.1 p.2).num_cores := by
      rw [insert_num_cores]
      exact hi
    have step := ih (Node.insert hashk n p.1 p.2) i hlen₂ hi₂
    rw [Node.insertAll, step]
    simp only [insert_num_cores]
    have hshards : (Node.insert hashk n p.1 p.2).shards
        = modifyIdx (fun s => Shard.enqueue s (Request.put p.1 p.2))
            (shard_id_of hashk n.num_cores p.1) n.shards := rfl
    rw [hshards]
    by_cases hsid : shard_id_of hashk n.num_cores p.1 = i
    · rw [hsid, getD_modifyIdx_self _ _ _ _ (by rw [hlen]; exact hi)]
      simp [Shard.enqueue, List.filter_cons, hsid, List.append_assoc]
    · rw [getD_modifyIdx_ne _ _ _ _ _ hsid]
      simp [List.filter_cons, hsid]

/- ------------------------------------------------------------------ -/
/- What a get observes after flush                                    -/
/- ------------------------------------------------------------------ -/

theorem get_after_flush_insertAll [DecidableEq K] (hashk : K → Nat) (N : Nat)
    (ops : List (K × V)) (k : K) (hN : 0 < N) :
    (Node.get hashk (Node.flush (Node.insertAll hashk (Node.init N) ops)) k).1 =
      findValue (process_fifo ([] : List (K × V))
        ((ops.filter (fun p => decide (shard_id_of hashk N p.1 = shard_id_of hashk N k))).map
          (fun p => Request.put p.1 p.2))).1 k := by
  have hmc : (Node.insertAll hashk (Node.init N) ops : NodeState K V).num_cores = N :=
    insertAll_num_cores hashk ops (Node.init N)
  have hml : (Node.insertAll hashk (Node.init N) ops : NodeState K V).shards.length = N := by
    rw [insertAll_shards_length]
    simp [Node.init]
  have hsid : shard_id_of hashk N k < N := Nat.mod_lt _ hN
  have hins := insertAll_getD hashk ops (Node.init N) (shard_id_of hashk N k)
      (by simp [Node.init]) (by simpa [Node.init] using hsid)
  have hinit : (Node.init N : NodeState K V).shards.getD (shard_id_of hashk N k) emptyShard
      = emptyShard := getD_replicate_self _ _ _ _ hsid
  rw [hinit] at hins
  have hnc0 : (Node.init N : NodeState K V).num_cores = N := rfl
  simp only [hnc0] at hins
  have he1 : (emptyShard : ShardState K V).data = [] := rfl
  have he2 : (emptyShard : ShardState K V).queue = [] := rfl
  rw [he1, he2, List.nil_append] at hins
  have hfl : (Node.flush (Node.insertAll hashk (Node.init N) ops) : NodeState K V).shards.getD
      (shard_id_of hashk N k) emptyShard
      = { data := (process_fifo ([] : List (K × V))
            (((ops.filter (fun p =>
                decide (shard_id_of hashk N p.1 = shard_id_of hashk N k))).map
              (fun p => Request.put p.1 p.2)) ++ [Request.flush])).1,
          queue := [] } := by
    show ((Node.insertAll hashk (Node.init N) ops : NodeState K V).shards.map
      (fun s => { data := (process_fifo s.data (s.queue ++ [Request.flush])).1,
                  queue := ([] : List (Request K V)) })).getD
        (shard_id_of hashk N k) emptyShard = _
    rw [getD_map_of_lt _ _ _ emptyShard _ (by rw [hml]; exact hsid), hins]
  have hfc : (Node.flush (Node.insertAll hashk (Node.init N) ops) : NodeState K V).num_cores
      = N := by
    rw [flush_num_cores, hmc]
  simp only [Node.get, hfc, hfl]
  rw [process_fifo_flush_last]
  simp [process_fifo, handle_request]

/- ------------------------------------------------------------------ -/
/- Node-level claims                                                  -/
/- ------------------------------------------------------------------ -/

/-- C1: round trip.  For every key k and value v, after insert(k, v) followed
by flush(), get(k) yields present v, for any number of interleaved inserts on
pairwise distinct keys: starting from a fresh Node with a positive shard
count, issuing any list of inserts whose keys are pairwise distinct and which
contains (k, v), then flushing, a get(k) returns some v. -/
theorem round_trip [DecidableEq K] (hashk : K → Nat) (N : Nat) (ops : List (K × V))
    (k : K) (v : V) (hN : 0 < N) (hnd : (ops.map Prod.fst).Nodup) (hmem : (k, v) ∈ ops) :
    (Node.get hashk (Node.flush (Node.insertAll hashk (Node.init N) ops)) k).1 = some v := by
  rw [get_after_flush_insertAll hashk N ops k hN]
  refine process_fifo_puts_mem _ _ _ _ ?_ ?_
  · exact List.mem_filter.mpr ⟨hmem, by simp⟩
  · exact List.Nodup.sublist (List.Sublist.map Prod.fst (List.filter_sublist ops)) hnd

/-- Witness for C1: two shards, identity hash on integer keys as in main.cpp,
three inserts on distinct keys, flush, then get of the middle key. -/
theorem round_trip_witness :
    0 < 2
    ∧ (Node.get hash_key (Node.flush (Node.insertAll hash_key (Node.init 2)
        [((1 : Nat), (10 : Nat)), (4, 11), (2, 12)])) 4).1 = some 11 :=
  ⟨by decide,
   round_trip hash_key 2 [((1 : Nat), (10 : Nat)), (4, 11), (2, 12)] 4 11
     (by decide) (by decide) (by decide)⟩

/-- C3: last writer wins per key.  For any key k and values v₁ … vₙ inserted
for k in order by one client, after flush() a get(k) yields the last value:
the last element of the value list is the reply. -/
theorem last_writer_wins [DecidableEq K] (hashk : K → Nat) (N : Nat) (k : K)
    (vs : List V) (v : V) (hN : 0 < N) (hlast : vs.getLast? = some v) :
    (Node.get hashk (Node.flush (Node.insertAll hashk (Node.init N)
        (vs.map (fun w => (k, w))))) k).1 = some v := by
  rw [get_after_flush_insertAll hashk N _ k hN]
  have hfilter : (vs.map (fun w => (k, w))).filter
      (fun p => decide (shard_id_of hashk N p.1 = shard_id_of hashk N k))
      = vs.map (fun w => (k, w)) := by
    apply List.filter_eq_self.mpr
    intro p hp
    obtain ⟨w, hw, rfl⟩ := List.mem_map.mp hp
    simp
  rw [hfilter, List.map_map]
  exact process_fifo_puts_last vs [] k v hlast

/-- Witness for C3: two shards, three successive values for key 3, get
returns the last one. -/
theorem last_writer_wins_witness :
    0 < 2
    ∧ ([(5 : Nat), 6, 7].getLast? = some 7)
    ∧ (Node.get hash_key (Node.flush (Node.insertAll hash_key (Node.init 2)
        ([(5 : Nat), 6, 7].map (fun w => ((3 : Nat), w))))) 3).1 = some 7 :=
  ⟨by decide, by decide,
   last_writer_wins hash_key 2 3 [(5 : Nat), 6, 7] 7 (by decide) (by decide)⟩

/-- C4: absence.  For a key never inserted, get yields absent (none), and a
missing key is never surfaced as an error: the Get handler always completes
the reply with a successful getReply carrying the lookup result, there being
no error variant at all. -/
theorem absent_key [DecidableEq K] (hashk : K → Nat) (N : Nat) (ops : List (K × V))
    (k : K) (d : List (K × V)) (hN : 0 < N) (hnot : ∀ p ∈ ops, p.1 ≠ k) :
    (Node.get hashk (Node.flush (Node.insertAll hashk (Node.init N) ops)) k).1 = none
    ∧ (handle_request d (Request.get k)).2 = [Response.getReply (findValue d k)] := by
  constructor
  · rw [get_after_flush_insertAll hashk N ops k hN]
    rw [process_fifo_puts_other _ _ _ (fun p hp => hnot p (List.mem_of_mem_filter hp))]
    rfl
  · rfl

/-- Witness for C4: key 6 was never inserted; get returns none and the Get
handler on a concrete map writes one successful reply. -/
theorem absent_key_witness :
    0 < 2
    ∧ ((Node.get hash_key (Node.flush (Node.insertAll hash_key (Node.init 2)
          [((1 : Nat), (10 : Nat)), (4, 11)])) 6).1 = none
       ∧ (handle_request [((1 : Nat), (10 : Nat))] (Request.get 6)).2
           = [Response.getReply (findValue [((1 : Nat), (10 : Nat))] 6)]) :=
  ⟨by decide,
   absent_key hash_key 2 [((1 : Nat), (10 : Nat)), (4, 11)] 6 [((1 : Nat), (10 : Nat))]
     (by decide) (by decide)⟩

/- ------------------------------------------------------------------ -/
/- Bounded inbox (spec-modelled)                                      -/
/- ------------------------------------------------------------------ -/

/-- Modelled from the spec: the bounded FIFO inbox of section 4.1.  The queue
implementations included by the sources (concurrentqueue.h in main.cpp,
SPSCQueue.h in test_main.cpp) are external headers not present under src, so
the queue is modelled from the contract the spec states: fixed capacity set
at construction, try_push appends at the back and returns true when the queue
is not full, and returns false leaving the queue unchanged when full, the
producer busy-retrying in that case (test_main.cpp line 68). -/
structure BoundedQueue (α : Type) where
  capacity : Nat
  items : List α
deriving DecidableEq

/-- Modelled from the spec: try_push of the bounded FIFO queue. -/
def try_push {α : Type} (q : BoundedQueue α) (x : α) : BoundedQueue α × Bool :=
  if q.items.length < q.capacity then ({ q with items := q.items ++ [x] }, true)
  else (q, false)

/-- Modelled from the spec: try_pop of the bounded FIFO queue. -/
def try_pop {α : Type} (q : BoundedQueue α) : BoundedQueue α × Option α :=
  match q.items with
  | [] => (q, none)
  | x :: rest => ({ q with items := rest }, some x)

/-- C6: the inbox has a fixed capacity set at construction and never holds
more than capacity many requests: try_push and try_pop preserve the bound and
the capacity, a push onto a full inbox fails leaving the queue unchanged (so
the producer, which busy-retries, still holds the request and nothing is
dropped), and as soon as the queue is below capacity a push succeeds and
appends the request at the back. -/
theorem inbox_bounded {α : Type} (q : BoundedQueue α) (x : α)
    (h : q.items.length ≤ q.capacity) :
    ((try_push q x).1.items.length ≤ q.capacity
     ∧ (try_push q x).1.capacity = q.capacity
     ∧ (try_pop q).1.items.length ≤ q.capacity
     ∧ (try_pop q).1.capacity = q.capacity)
    ∧ (q.items.length = q.capacity → try_push q x = (q, false))
    ∧ (q.items.length < q.capacity
        → try_push q x = ({ q with items := q.items ++ [x] }, true)) := by
  refine ⟨⟨?_, ?_, ?_, ?_⟩, ?_, ?_⟩
  · by_cases hf : q.items.length < q.capacity
    · simp only [try_push, if_pos hf, List.length_append, List.length_cons, List.length_nil]
      omega
    · simpa only [try_push, if_neg hf] using h
  · by_cases hf : q.items.length < q.capacity
    · simp [try_push, if_pos hf]
    · simp [try_push, if_neg hf]
  · rcases hq : q.items with _ | ⟨y, rest⟩
    · simp [try_pop, hq]
    · simp only [try_pop, hq]
      have := h
      rw [hq] at this
      simp only [List.length_cons] at this
      omega
  · rcases hq : q.items with _ | ⟨y, rest⟩ <;> simp [try_pop, hq]
  · intro hfull
    simp [try_push, hfull]
  · intro hlt
    simp [try_push, if_pos hlt]

/-- Witness for C6 at a full queue of capacity one. -/
theorem inbox_bounded_witness :
    ({ capacity := 1, items := [(5 : Nat)] } : BoundedQueue Nat).items.length
      ≤ ({ capacity := 1, items := [(5 : Nat)] } : BoundedQueue Nat).capacity
    ∧ (((try_push ({ capacity := 1, items := [(5 : Nat)] } : BoundedQueue Nat) 7).1.items.length
          ≤ ({ capacity := 1, items := [(5 : Nat)] } : BoundedQueue Nat).capacity
        ∧ (try_push ({ capacity := 1, items := [(5 : Nat)] } : BoundedQueue Nat) 7).1.capacity
          = ({ capacity := 1, items := [(5 : Nat)] } : BoundedQueue Nat).capacity
        ∧ (try_pop ({ capacity := 1, items := [(5 : Nat)] } : BoundedQueue Nat)).1.items.length
          ≤ ({ capacity := 1, items := [(5 : Nat)] } : BoundedQueue Nat).capacity
        ∧ (try_pop ({ capacity := 1, items := [(5 : Nat)] } : BoundedQueue Nat)).1.capacity
          = ({ capacity := 1, items := [(5 : Nat)] } : BoundedQueue Nat).capacity)
       ∧ (({ capacity := 1, items := [(5 : Nat)] } : BoundedQueue Nat).items.length
            = ({ capacity := 1, items := [(5 : Nat)] } : BoundedQueue Nat).capacity
          → try_push ({ capacity := 1, items := [(5 : Nat)] } : BoundedQueue Nat) 7
            = (({ capacity := 1, items := [(5 : Nat)] } : BoundedQueue Nat), false))
       ∧ (({ capacity := 1, items := [(5 : Nat)] } : BoundedQueue Nat).items.length
            < ({ capacity := 1, items := [(5 : Nat)] } : BoundedQueue Nat).capacity
          → try_push ({ capacity := 1, items := [(5 : Nat)] } : BoundedQueue Nat) 7
            = ({ capacity := 1, items := [(5 : Nat)] ++ [7] }, true))) :=
  ⟨by decide, inbox_bounded { capacity := 1, items := [(5 : Nat)] } 7 (by decide)⟩

end KVStore
